import Mathlib

/-!
Verification of the CGM (continuous glucose monitoring) analysis pipeline in
`CGM Data Analysis/output_graph.py`.

A participant series is modelled as the list of its `blood_glucose_value`
entries, as rationals (the CSV cells are decimal numerals).  The pandas
operations used by the script are embedded as follows:

* `Series.mean()` — sum divided by length (`mean`);
* `Series.std()` — sample standard deviation with `ddof = 1`; pandas yields
  `NaN` when fewer than two readings are present, modelled as `none`
  (`std_dev : List ℚ → Option ℝ`, the square root living in `ℝ`);
* `Series.quantile(q)` — linear interpolation on the sorted values at
  position `q * (n - 1)` (`quantile`), `NaN`/failure on the empty series
  modelled as `none`;
* `Series.min()` / `Series.max()` — `List.min?` / `List.max?`;
* boolean-mask filtering and `len` — `List.filter` and `List.length`.

File-system effects of the plotter and the batch driver are modelled by an
explicit list of paths present on disk, and the figure resource together
with the exception behaviour of the plotter body by a small step semantics
(`PlotStep`, `run_steps`).  The in-place column assignments of the plotter
are modelled by a heap of data frames (`plot_transform`).
-/

namespace CGM

/-- `data['blood_glucose_value'].mean()`: sum of the readings divided by their
number (pandas mean). -/
def mean (xs : List ℚ) : ℚ :=
  xs.sum / xs.length

/-- `data['blood_glucose_value'].std()`: pandas sample standard deviation with
`ddof = 1`, which is `NaN` (here `none`) when the series has fewer than two
readings, and otherwise the square root of the sum of squared deviations from
the mean divided by `n - 1`. -/
noncomputable def std_dev (xs : List ℚ) : Option ℝ :=
  if xs.length < 2 then none
  else some (Real.sqrt
    (((xs.map (fun x : ℚ => ((x : ℝ) - (mean xs : ℝ)) ^ 2)).sum) / ((xs.length : ℝ) - 1)))

/-- `cv_percent = (std_dev / mean_blood_glucose) * 100`; `NaN` (here `none`)
propagates from `std_dev`. -/
noncomputable def cv_percent (xs : List ℚ) : Option ℝ :=
  (std_dev xs).map (fun s => s / (mean xs : ℝ) * 100)

/-- `len(data[(bg >= low_range) & (bg <= high_range)]) / len(data) * 100`. -/
def tir_percent (xs : List ℚ) (low_range high_range : ℚ) : ℚ :=
  ((xs.filter (fun x => decide (low_range ≤ x) && decide (x ≤ high_range))).length : ℚ)
    / (xs.length : ℚ) * 100

/-- `len(data[bg > high_range]) / len(data) * 100`. -/
def tar_percent (xs : List ℚ) (high_range : ℚ) : ℚ :=
  ((xs.filter (fun x => decide (high_range < x))).length : ℚ) / (xs.length : ℚ) * 100

/-- `len(data[bg < low_range]) / len(data) * 100`. -/
def tbr_percent (xs : List ℚ) (low_range : ℚ) : ℚ :=
  ((xs.filter (fun x => decide (x < low_range))).length : ℚ) / (xs.length : ℚ) * 100

/-- `calculate_glucose_analysis(data, low_range=70, high_range=140)`: returns
`(mean, std, cv%, tir%, tar%, tbr%)`.  The default bounds `70` and `140` are
passed explicitly at the one call site, as in the source. -/
noncomputable def calculate_glucose_analysis (xs : List ℚ) (low_range high_range : ℚ) :
    ℚ × Option ℝ × Option ℝ × ℚ × ℚ × ℚ :=
  (mean xs, std_dev xs, cv_percent xs,
    tir_percent xs low_range high_range, tar_percent xs high_range, tbr_percent xs low_range)

/-- Linear interpolation of a (sorted) value list at fractional position `h`,
as numpy/pandas `quantile` does: `s[⌊h⌋] + (h - ⌊h⌋) * (s[⌊h⌋+1] - s[⌊h⌋])`.
Out-of-range accesses only occur multiplied by a zero fractional part. -/
def interp (s : List ℚ) (h : ℚ) : ℚ :=
  s.getD (⌊h⌋).toNat 0 + (h - ⌊h⌋) * (s.getD ((⌊h⌋).toNat + 1) 0 - s.getD (⌊h⌋).toNat 0)

/-- `data['blood_glucose_value'].quantile(q)`: sort the values and linearly
interpolate at position `q * (n - 1)`; undefined (`none`) on the empty
series. -/
def quantile (xs : List ℚ) (q : ℚ) : Option ℚ :=
  if xs = [] then none
  else some (interp (List.insertionSort (fun a b => a ≤ b) xs) (q * ((xs.length : ℚ) - 1)))

/-- `calculate_glucose_ranges(data)`: the 5th percentile, the 95th percentile,
the minimum and the maximum of the glucose column; none of them exists on an
empty series. -/
def calculate_glucose_ranges (xs : List ℚ) : Option (ℚ × ℚ × ℚ × ℚ) := do
  let low_value ← quantile xs (5 / 100)
  let high_value ← quantile xs (95 / 100)
  let bg_min ← xs.min?
  let bg_max ← xs.max?
  return (low_value, high_value, bg_min, bg_max)

/-- Each reading falls in exactly one of the three mask filters of
`calculate_glucose_analysis`: below `low_range`, inside `[low_range, high_range]`,
or above `high_range`; so the three filtered lengths sum to the series length. -/
theorem count_partition (low_range high_range : ℚ) (hlh : low_range ≤ high_range) :
    ∀ xs : List ℚ,
      (xs.filter (fun x => decide (x < low_range))).length
        + (xs.filter (fun x => decide (low_range ≤ x) && decide (x ≤ high_range))).length
        + (xs.filter (fun x => decide (high_range < x))).length = xs.length := by
  intro xs
  induction xs with
  | nil => simp
  | cons a xs ih =>
    by_cases h1 : a < low_range
    · have h2 : ¬ low_range ≤ a := not_le.mpr h1
      have h3 : ¬ high_range < a := not_lt.mpr (le_of_lt (lt_of_lt_of_le h1 hlh))
      simp [List.filter_cons, h1, h2, h3]
      omega
    · have h2 : low_range ≤ a := not_lt.mp h1
      by_cases h4 : a ≤ high_range
      · have h3 : ¬ high_range < a := not_lt.mpr h4
        simp [List.filter_cons, h1, h2, h3, h4]
        omega
      · have h3 : high_range < a := not_le.mp h4
        simp [List.filter_cons, h1, h2, h3, h4]
        omega

/-- A `getD` access within range is a plain indexed access. -/
theorem getD_eq_getElem_of_lt (s : List ℚ) (i : ℕ) (h : i < s.length) :
    s.getD i 0 = s[i] := by
  simp [List.getD_eq_getElem?_getD, List.getElem?_eq_getElem h]

/-- A `getD` access within range yields a member of the list. -/
theorem getD_mem (s : List ℚ) (i : ℕ) (h : i < s.length) : s.getD i 0 ∈ s := by
  rw [getD_eq_getElem_of_lt s i h]
  exact List.getElem_mem h

/-- Entries of a `≤`-sorted list are monotone in the index. -/
theorem sorted_getD_mono (s : List ℚ) (hs : List.Sorted (fun a b : ℚ => a ≤ b) s)
    {i j : ℕ} (hij : i ≤ j) (hj : j < s.length) : s.getD i 0 ≤ s.getD j 0 := by
  have hi : i < s.length := Nat.lt_of_le_of_lt hij hj
  rw [getD_eq_getElem_of_lt s i hi, getD_eq_getElem_of_lt s j hj]
  have h := hs.rel_get_of_le (a := ⟨i, hi⟩) (b := ⟨j, hj⟩) (Fin.mk_le_mk.mpr hij)
  simpa using h

/-- The interpolation index `⌊h⌋` stays inside a non-empty list when
`0 ≤ h ≤ length - 1`. -/
theorem floor_toNat_lt_length (s : List ℚ) (hn : s ≠ []) (h : ℚ) (h0 : 0 ≤ h)
    (hle : h ≤ (s.length : ℚ) - 1) : (⌊h⌋).toNat < s.length := by
  have h1 : 1 ≤ s.length := List.length_pos.mpr hn
  have hf0 : 0 ≤ ⌊h⌋ := Int.floor_nonneg.mpr h0
  have hfl : ⌊h⌋ ≤ (s.length : ℤ) - 1 := by
    have h2 : h ≤ (((s.length : ℤ) - 1 : ℤ) : ℚ) := by push_cast; exact hle
    have h3 := Int.floor_mono h2
    simpa using h3
  omega

/-- When the fractional part of `h` is positive, the second interpolation
index `⌊h⌋ + 1` also stays inside the list. -/
theorem floor_toNat_succ_lt_length (s : List ℚ) (h : ℚ) (h0 : 0 ≤ h)
    (hglt : (⌊h⌋ : ℚ) < h) (hle : h ≤ (s.length : ℚ) - 1) :
    (⌊h⌋).toNat + 1 < s.length := by
  have hf0 : 0 ≤ ⌊h⌋ := Int.floor_nonneg.mpr h0
  have h2 : (⌊h⌋ : ℚ) < (s.length : ℚ) - 1 := lt_of_lt_of_le hglt hle
  have hfl : ⌊h⌋ < (s.length : ℤ) - 1 := by exact_mod_cast h2
  omega

/-- The interpolated value lies between any lower bound and any upper bound
of a sorted non-empty list. -/
theorem interp_bounds (s : List ℚ) (hs : List.Sorted (fun a b : ℚ => a ≤ b) s)
    (hn : s ≠ []) (h : ℚ) (h0 : 0 ≤ h) (hle : h ≤ (s.length : ℚ) - 1)
    {lo hi : ℚ} (hlo : ∀ x ∈ s, lo ≤ x) (hhi : ∀ x ∈ s, x ≤ hi) :
    lo ≤ interp s h ∧ interp s h ≤ hi := by
  have hilt : (⌊h⌋).toNat < s.length := floor_toNat_lt_length s hn h h0 hle
  have hmem : s.getD (⌊h⌋).toNat 0 ∈ s := getD_mem s _ hilt
  have hg0 : 0 ≤ h - (⌊h⌋ : ℚ) := by
    have := Int.floor_le h
    linarith
  by_cases hg : h - (⌊h⌋ : ℚ) = 0
  · unfold interp
    rw [hg]
    simp only [zero_mul, add_zero]
    exact ⟨hlo _ hmem, hhi _ hmem⟩
  · have hglt : (⌊h⌋ : ℚ) < h := lt_of_le_of_ne (Int.floor_le h) fun e => hg (by rw [← e]; simp)
    have hi1lt : (⌊h⌋).toNat + 1 < s.length := floor_toNat_succ_lt_length s h h0 hglt hle
    have hmem1 : s.getD ((⌊h⌋).toNat + 1) 0 ∈ s := getD_mem s _ hi1lt
    have hg1 : h - (⌊h⌋ : ℚ) < 1 := by
      have := Int.lt_floor_add_one h
      linarith
    have ha := hlo _ hmem
    have hb := hlo _ hmem1
    have ha' := hhi _ hmem
    have hb' := hhi _ hmem1
    unfold interp
    constructor
    · nlinarith [mul_nonneg hg0 (sub_nonneg.mpr hb),
        mul_nonneg (by linarith : (0 : ℚ) ≤ 1 - (h - (⌊h⌋ : ℚ))) (sub_nonneg.mpr ha)]
    · nlinarith [mul_nonneg hg0 (sub_nonneg.mpr (le_refl hi)),
        mul_nonneg hg0 (sub_nonneg.mpr hb'),
        mul_nonneg (by linarith : (0 : ℚ) ≤ 1 - (h - (⌊h⌋ : ℚ))) (sub_nonneg.mpr ha')]

/-- The value at the floor index is a lower bound for the interpolated
value. -/
theorem getD_floor_le_interp (s : List ℚ) (hs : List.Sorted (fun a b : ℚ => a ≤ b) s)
    (hn : s ≠ []) (h : ℚ) (h0 : 0 ≤ h) (hle : h ≤ (s.length : ℚ) - 1) :
    s.getD (⌊h⌋).toNat 0 ≤ interp s h := by
  have hg0 : 0 ≤ h - (⌊h⌋ : ℚ) := by
    have := Int.floor_le h
    linarith
  by_cases hg : h - (⌊h⌋ : ℚ) = 0
  · unfold interp
    rw [hg]
    simp
  · have hglt : (⌊h⌋ : ℚ) < h := lt_of_le_of_ne (Int.floor_le h) fun e => hg (by rw [← e]; simp)
    have hi1lt : (⌊h⌋).toNat + 1 < s.length := floor_toNat_succ_lt_length s h h0 hglt hle
    have hAB : s.getD (⌊h⌋).toNat 0 ≤ s.getD ((⌊h⌋).toNat + 1) 0 :=
      sorted_getD_mono s hs (Nat.le_succ _) hi1lt
    unfold interp
    nlinarith [mul_nonneg hg0 (sub_nonneg.mpr hAB)]

/-- When the successor index is in range, the value there is an upper bound
for the interpolated value. -/
theorem interp_le_getD_floor_succ (s : List ℚ) (hs : List.Sorted (fun a b : ℚ => a ≤ b) s)
    (h : ℚ) (hsucc : (⌊h⌋).toNat + 1 < s.length) (hg1 : h - (⌊h⌋ : ℚ) < 1) :
    interp s h ≤ s.getD ((⌊h⌋).toNat + 1) 0 := by
  have hAB : s.getD (⌊h⌋).toNat 0 ≤ s.getD ((⌊h⌋).toNat + 1) 0 :=
    sorted_getD_mono s hs (Nat.le_succ _) hsucc
  unfold interp
  nlinarith [mul_nonneg (by linarith : (0 : ℚ) ≤ 1 - (h - (⌊h⌋ : ℚ))) (sub_nonneg.mpr hAB)]

/-- Piecewise-linear interpolation over a sorted list is monotone in the
position. -/
theorem interp_mono (s : List ℚ) (hs : List.Sorted (fun a b : ℚ => a ≤ b) s)
    (hn : s ≠ []) (h₁ h₂ : ℚ) (h0 : 0 ≤ h₁) (h12 : h₁ ≤ h₂)
    (hle : h₂ ≤ (s.length : ℚ) - 1) : interp s h₁ ≤ interp s h₂ := by
  have h02 : 0 ≤ h₂ := le_trans h0 h12
  have hle1 : h₁ ≤ (s.length : ℚ) - 1 := le_trans h12 hle
  have h1f0 : 0 ≤ ⌊h₁⌋ := Int.floor_nonneg.mpr h0
  have h2f0 : 0 ≤ ⌊h₂⌋ := Int.floor_nonneg.mpr h02
  have hi2lt : (⌊h₂⌋).toNat < s.length := floor_toNat_lt_length s hn h₂ h02 hle
  have hg1_0 : 0 ≤ h₁ - (⌊h₁⌋ : ℚ) := by have := Int.floor_le h₁; linarith
  have hg1_1 : h₁ - (⌊h₁⌋ : ℚ) < 1 := by have := Int.lt_floor_add_one h₁; linarith
  have hg2_0 : 0 ≤ h₂ - (⌊h₂⌋ : ℚ) := by have := Int.floor_le h₂; linarith
  have hg2_1 : h₂ - (⌊h₂⌋ : ℚ) < 1 := by have := Int.lt_floor_add_one h₂; linarith
  have hfm : ⌊h₁⌋ ≤ ⌊h₂⌋ := Int.floor_mono h12
  rcases eq_or_lt_of_le hfm with heq | hlt
  · by_cases hsucc : (⌊h₂⌋).toNat + 1 < s.length
    · have hD : 0 ≤ s.getD ((⌊h₂⌋).toNat + 1) 0 - s.getD (⌊h₂⌋).toNat 0 :=
        sub_nonneg.mpr (sorted_getD_mono s hs (Nat.le_succ _) hsucc)
      unfold interp
      rw [heq]
      nlinarith [mul_nonneg (sub_nonneg.mpr h12) hD]
    · have hi2n : (s.length : ℚ) - 1 ≤ ((⌊h₂⌋).toNat : ℚ) := by
        have : s.length ≤ (⌊h₂⌋).toNat + 1 := Nat.le_of_not_lt hsucc
        have hQ : (s.length : ℚ) ≤ ((⌊h₂⌋).toNat : ℚ) + 1 := by exact_mod_cast this
        linarith
      have hc : ((⌊h₂⌋).toNat : ℚ) = (⌊h₂⌋ : ℚ) := by
        exact_mod_cast congrArg (fun z : ℤ => (z : ℚ)) (Int.toNat_of_nonneg h2f0)
      have hfix : h₂ = (⌊h₂⌋ : ℚ) := by
        have h4 : h₂ ≤ (⌊h₂⌋ : ℚ) := by rw [← hc]; linarith
        have h5 := Int.floor_le h₂
        linarith
      have h1eq2 : h₁ = h₂ := by
        have h6 : (⌊h₁⌋ : ℚ) ≤ h₁ := Int.floor_le h₁
        rw [heq] at h6
        rw [← hfix] at h6
        exact le_antisymm h12 h6
      rw [h1eq2]
  · have hi1succ_le : (⌊h₁⌋).toNat + 1 ≤ (⌊h₂⌋).toNat := by omega
    have hi1succ_lt : (⌊h₁⌋).toNat + 1 < s.length := Nat.lt_of_le_of_lt hi1succ_le hi2lt
    have step1 : interp s h₁ ≤ s.getD ((⌊h₁⌋).toNat + 1) 0 :=
      interp_le_getD_floor_succ s hs h₁ hi1succ_lt hg1_1
    have step2 : s.getD ((⌊h₁⌋).toNat + 1) 0 ≤ s.getD (⌊h₂⌋).toNat 0 :=
      sorted_getD_mono s hs hi1succ_le hi2lt
    have step3 : s.getD (⌊h₂⌋).toNat 0 ≤ interp s h₂ :=
      getD_floor_le_interp s hs hn h₂ h02 hle
    linarith

end CGM

namespace CGM

/-- Claim C1: for every non-empty series (no missing values in this model) and
clinical bounds with `low_range ≤ high_range`, each reading is counted by
exactly one of the TIR/TAR/TBR mask filters — the three filtered counts sum to
the series length — and the three percentages returned by
`calculate_glucose_analysis` sum to exactly 100, boundary readings counting as
in range. -/
theorem tir_tar_tbr_partition (xs : List ℚ) (low_range high_range : ℚ)
    (hne : xs ≠ []) (hlh : low_range ≤ high_range) :
    (xs.filter (fun x => decide (low_range ≤ x) && decide (x ≤ high_range))).length
      + (xs.filter (fun x => decide (high_range < x))).length
      + (xs.filter (fun x => decide (x < low_range))).length = xs.length
    ∧ (calculate_glucose_analysis xs low_range high_range).2.2.2.1
      + (calculate_glucose_analysis xs low_range high_range).2.2.2.2.1
      + (calculate_glucose_analysis xs low_range high_range).2.2.2.2.2 = 100 := by
  have hcount := count_partition low_range high_range hlh xs
  have hn : xs.length ≠ 0 := fun h => hne (List.length_eq_zero.mp h)
  constructor
  · omega
  · have hnQ : (xs.length : ℚ) ≠ 0 := Nat.cast_ne_zero.mpr hn
    have hcast : ((xs.filter (fun x => decide (x < low_range))).length : ℚ)
        + ((xs.filter (fun x => decide (low_range ≤ x) && decide (x ≤ high_range))).length : ℚ)
        + ((xs.filter (fun x => decide (high_range < x))).length : ℚ)
        = (xs.length : ℚ) := by
      exact_mod_cast congrArg (fun n : ℕ => (n : ℚ)) hcount
    simp only [calculate_glucose_analysis, tir_percent, tar_percent, tbr_percent]
    field_simp
    linarith

/-- Witness for `tir_tar_tbr_partition` at the concrete series
`[50, 70, 90, 140, 160]` with the default bounds. -/
theorem tir_tar_tbr_partition_witness :
    ([50, 70, 90, 140, 160] : List ℚ) ≠ [] ∧ (70 : ℚ) ≤ 140 ∧
    (calculate_glucose_analysis [50, 70, 90, 140, 160] 70 140).2.2.2.1
      + (calculate_glucose_analysis [50, 70, 90, 140, 160] 70 140).2.2.2.2.1
      + (calculate_glucose_analysis [50, 70, 90, 140, 160] 70 140).2.2.2.2.2 = 100 :=
  ⟨by simp, by norm_num,
    (tir_tar_tbr_partition [50, 70, 90, 140, 160] 70 140 (by simp) (by norm_num)).2⟩

/-- Claim C2: whenever `calculate_glucose_ranges` returns values (i.e. on every
non-empty series), they satisfy `bg_min ≤ low ≤ high ≤ bg_max`, `low` being the
5th percentile, `high` the 95th percentile, and `bg_min`/`bg_max` the observed
extremes; in particular `low ≤ high` holds, with or without two distinct
values. -/
theorem ranges_ordered (xs : List ℚ) (low_value high_value bg_min bg_max : ℚ)
    (hr : calculate_glucose_ranges xs = some (low_value, high_value, bg_min, bg_max)) :
    bg_min ≤ low_value ∧ low_value ≤ high_value ∧ high_value ≤ bg_max := by
  have hne : xs ≠ [] := by
    intro hxs
    rw [hxs] at hr
    simp [calculate_glucose_ranges, quantile] at hr
  obtain ⟨y, hy⟩ : ∃ y, y ∈ xs := by
    cases xs with
    | nil => exact absurd rfl hne
    | cons a l => exact ⟨a, List.mem_cons_self a l⟩
  obtain ⟨mn, hmn⟩ := Option.isSome_iff_exists.mp (List.isSome_min?_of_mem hy)
  obtain ⟨mx, hmx⟩ := Option.isSome_iff_exists.mp (List.isSome_max?_of_mem hy)
  simp only [calculate_glucose_ranges, quantile, if_neg hne, hmn, hmx,
    Option.bind_eq_bind, Option.some_bind, Option.some.injEq, Prod.mk.injEq] at hr
  obtain ⟨h1, h2, h3, h4⟩ := hr
  have hlo : ∀ x ∈ xs, bg_min ≤ x := by
    intro x hx
    exact (List.le_min?_iff (fun a b c => le_min_iff) hmn).mp (le_refl bg_min) x hx
  have hhi : ∀ x ∈ xs, x ≤ bg_max := by
    intro x hx
    exact (List.max?_le_iff (fun a b c => max_le_iff) hmx).mp (le_refl bg_max) x hx
  have hsorted := List.sorted_insertionSort (r := fun a b : ℚ => a ≤ b) xs
  have hperm := List.perm_insertionSort (r := fun a b : ℚ => a ≤ b) xs
  have hslen : (List.insertionSort (fun a b : ℚ => a ≤ b) xs).length = xs.length :=
    hperm.length_eq
  have hsne : List.insertionSort (fun a b : ℚ => a ≤ b) xs ≠ [] := by
    intro h
    apply hne
    have : xs.length = 0 := by rw [← hslen, h]; rfl
    exact List.length_eq_zero.mp this
  have hlo' : ∀ x ∈ List.insertionSort (fun a b : ℚ => a ≤ b) xs, bg_min ≤ x :=
    fun x hx => hlo x (hperm.mem_iff.mp hx)
  have hhi' : ∀ x ∈ List.insertionSort (fun a b : ℚ => a ≤ b) xs, x ≤ bg_max :=
    fun x hx => hhi x (hperm.mem_iff.mp hx)
  have hlen1 : 1 ≤ xs.length := List.length_pos.mpr hne
  have hn1 : (0 : ℚ) ≤ (xs.length : ℚ) - 1 := by
    have : (1 : ℚ) ≤ (xs.length : ℚ) := by exact_mod_cast hlen1
    linarith
  have h1nn : 0 ≤ 5 / 100 * ((xs.length : ℚ) - 1) := by positivity
  have h2nn : 0 ≤ 95 / 100 * ((xs.length : ℚ) - 1) := by positivity
  have h1le : 5 / 100 * ((xs.length : ℚ) - 1)
      ≤ ((List.insertionSort (fun a b : ℚ => a ≤ b) xs).length : ℚ) - 1 := by
    rw [hslen]
    nlinarith
  have h2le : 95 / 100 * ((xs.length : ℚ) - 1)
      ≤ ((List.insertionSort (fun a b : ℚ => a ≤ b) xs).length : ℚ) - 1 := by
    rw [hslen]
    nlinarith
  have h12 : 5 / 100 * ((xs.length : ℚ) - 1) ≤ 95 / 100 * ((xs.length : ℚ) - 1) := by
    nlinarith
  refine ⟨?_, ?_, ?_⟩
  · exact (interp_bounds _ hsorted hsne _ h1nn h1le hlo' hhi').1
  · exact interp_mono _ hsorted hsne _ _ h1nn h12 h2le
  · exact (interp_bounds _ hsorted hsne _ h2nn h2le hlo' hhi').2

/-- Witness for `ranges_ordered` at the concrete series `[1, 2, 3]`. -/
theorem ranges_ordered_witness :
    calculate_glucose_ranges [1, 2, 3] = some (11 / 10, 29 / 10, 1, 3) ∧
    ((1 : ℚ) ≤ 11 / 10 ∧ (11 / 10 : ℚ) ≤ 29 / 10 ∧ (29 / 10 : ℚ) ≤ 3) := by
  have h : calculate_glucose_ranges [1, 2, 3] = some (11 / 10, 29 / 10, 1, 3) := by
    norm_num [calculate_glucose_ranges, quantile, interp, List.insertionSort,
      List.orderedInsert, List.min?, List.max?, List.foldl, List.cons_ne_nil]
  exact ⟨h, ranges_ordered [1, 2, 3] _ _ _ _ h⟩

/-- Claim C3: `calculate_glucose_ranges` is a pure function of the series
(its embedding has no state), yields no values on the empty series — the
pandas quantile/min/max of an empty series produce no valid result, modelled
as `none` — and yields values on every non-empty series. -/
theorem ranges_empty_fails :
    calculate_glucose_ranges [] = none ∧
    ∀ xs : List ℚ, xs ≠ [] → (calculate_glucose_ranges xs).isSome = true := by
  constructor
  · simp [calculate_glucose_ranges, quantile]
  · intro xs hne
    cases xs with
    | nil => exact absurd rfl hne
    | cons a l =>
      simp [calculate_glucose_ranges, quantile]

/-- Witness for `ranges_empty_fails`: the non-emptiness hypothesis discharged
at `[1, 2, 3]`. -/
theorem ranges_empty_fails_witness :
    calculate_glucose_ranges [] = none ∧
    (calculate_glucose_ranges [1, 2, 3]).isSome = true :=
  ⟨ranges_empty_fails.1, ranges_empty_fails.2 [1, 2, 3] (by simp)⟩

/-- Claim C5: on the series `[50, 70, 90, 140, 160]` with the default bounds
70/140, `calculate_glucose_analysis` returns TBR = 20%, TIR = 60%, TAR = 20%
(one reading below 70, three within `[70, 140]` inclusive, one above 140). -/
theorem analysis_concrete_series :
    (calculate_glucose_analysis [50, 70, 90, 140, 160] 70 140).2.2.2.2.2 = 20
    ∧ (calculate_glucose_analysis [50, 70, 90, 140, 160] 70 140).2.2.2.1 = 60
    ∧ (calculate_glucose_analysis [50, 70, 90, 140, 160] 70 140).2.2.2.2.1 = 20 := by
  refine ⟨?_, ?_, ?_⟩ <;>
    norm_num [calculate_glucose_analysis, tir_percent, tar_percent, tbr_percent, List.filter]

end CGM

namespace CGM

/-- Scaling every reading scales the pandas mean by the same factor. -/
theorem mean_scale (c : ℚ) (xs : List ℚ) :
    mean (xs.map (fun x => c * x)) = c * mean xs := by
  unfold mean
  rw [List.length_map]
  have hsum : (xs.map (fun x => c * x)).sum = c * xs.sum := by
    induction xs with
    | nil => simp
    | cons a l ih => simp [ih, mul_add]
  rw [hsum, mul_div_assoc]

/-- Scaling every reading scales the sum of squared deviations from the scaled
centre by the square of the factor. -/
theorem sq_dev_sum_scale (c μ : ℚ) :
    ∀ xs : List ℚ,
      ((xs.map (fun x => c * x)).map (fun x : ℚ => ((x : ℝ) - ((c * μ : ℚ) : ℝ)) ^ 2)).sum
        = (c : ℝ) ^ 2 * ((xs.map (fun x : ℚ => ((x : ℝ) - (μ : ℝ)) ^ 2)).sum)
  | [] => by simp
  | a :: l => by
    have ih := sq_dev_sum_scale c μ l
    simp only [List.map_cons, List.sum_cons, ih]
    push_cast
    ring

/-- Claim C4: for every non-empty series with nonzero mean, the coefficient of
variation returned by `calculate_glucose_analysis` is invariant under
multiplying every glucose value by the same positive constant. -/
theorem cv_percent_scale_invariant (xs : List ℚ) (c : ℚ)
    (hne : xs ≠ []) (hm : mean xs ≠ 0) (hc : 0 < c) :
    cv_percent (xs.map (fun x => c * x)) = cv_percent xs := by
  have hlenmap : (xs.map (fun x => c * x)).length = xs.length := List.length_map _ _
  by_cases hlen : xs.length < 2
  · unfold cv_percent std_dev
    rw [hlenmap]
    simp [hlen]
  · have hmean : mean (xs.map (fun x => c * x)) = c * mean xs := mean_scale c xs
    have hc0 : (0 : ℝ) < (c : ℝ) := by exact_mod_cast hc
    unfold cv_percent std_dev
    rw [hlenmap, if_neg hlen]
    simp only [Option.map_some']
    have hS : ((xs.map (fun x => c * x)).map
          (fun x : ℚ => ((x : ℝ) - ((mean (xs.map (fun x => c * x)) : ℚ) : ℝ)) ^ 2)).sum
        = (c : ℝ) ^ 2 * ((xs.map (fun x : ℚ => ((x : ℝ) - ((mean xs : ℚ) : ℝ)) ^ 2)).sum) := by
      rw [hmean]
      exact sq_dev_sum_scale c (mean xs) xs
    rw [hS, hmean]
    push_cast
    rw [show ((c : ℝ) ^ 2 * ((xs.map (fun x : ℚ => ((x : ℝ) - ((mean xs : ℚ) : ℝ)) ^ 2)).sum))
          / ((xs.length : ℝ) - 1)
        = (c : ℝ) ^ 2 * (((xs.map (fun x : ℚ => ((x : ℝ) - ((mean xs : ℚ) : ℝ)) ^ 2)).sum)
          / ((xs.length : ℝ) - 1)) from by ring]
    rw [Real.sqrt_mul (sq_nonneg _), Real.sqrt_sq hc0.le]
    rw [mul_div_mul_left _ _ (ne_of_gt hc0)]
    rw [if_neg hlen]
    simp [Option.map_some']

/-- Witness for `cv_percent_scale_invariant` at the series `[100, 120]` scaled
by `2`. -/
theorem cv_percent_scale_invariant_witness :
    ([100, 120] : List ℚ) ≠ [] ∧ mean [100, 120] ≠ 0 ∧ (0 : ℚ) < 2 ∧
    cv_percent (([100, 120] : List ℚ).map (fun x => 2 * x)) = cv_percent [100, 120] :=
  ⟨by simp, by norm_num [mean], by norm_num,
    cv_percent_scale_invariant [100, 120] 2 (by simp) (by norm_num [mean]) (by norm_num)⟩

/-- Claim C9: on a series with exactly one reading — non-empty, and with
nonzero mean — the pandas sample standard deviation (`ddof = 1`) is undefined
(`NaN`, modelled as `none`), and therefore the coefficient of variation is
undefined too. -/
theorem single_reading_cv_undefined (x : ℚ) (hm : mean [x] ≠ 0) :
    std_dev [x] = none ∧ cv_percent [x] = none := by
  constructor
  · simp [std_dev]
  · simp [cv_percent, std_dev]

/-- Witness for `single_reading_cv_undefined` at the single reading `100`. -/
theorem single_reading_cv_undefined_witness :
    mean [100] ≠ 0 ∧ std_dev [100] = none ∧ cv_percent [100] = none :=
  ⟨by norm_num [mean], single_reading_cv_undefined 100 (by norm_num [mean])⟩

end CGM

namespace CGM

/-- `os.path.join(a, b)` for the relative second components used by the
script. -/
def path_join (a b : String) : String := a ++ "/" ++ b

/-- The path written by the plotter:
`os.path.join(output_dir, f"participant_-pid-.png")`. -/
def plot_path (output_dir pid : String) : String :=
  path_join output_dir ("participant_" ++ pid ++ ".png")

/-- `plt.savefig(path)`: creates the file if absent and overwrites it in
place otherwise, so the set of paths on disk gains at most this one path. -/
def save_fig (fs : List String) (p : String) : List String :=
  if p ∈ fs then fs else fs ++ [p]

/-- State threaded through the plotter body: the number of live matplotlib
figures, and the paths present on disk. -/
structure PlotState where
  openFigs : ℕ
  files : List String

/-- The successive effectful steps of `plot_and_save_graph`, in statement
order: `plt.subplots` creates the figure; the rendering calls (`suptitle`,
the per-day `ax.plot` loop, the analysis text, labels, legend,
`tight_layout`) draw on it; `plt.savefig` writes the file; `plt.close(fig)`
releases the figure. -/
inductive PlotStep where
  | createFigure
  | render
  | saveFig
  | closeFig

/-- Effect of a single plotter step on the plot state, `p` being the output
path. -/
def run_step (p : String) : PlotStep → PlotState → PlotState
  | .createFigure, st => { st with openFigs := st.openFigs + 1 }
  | .render, st => st
  | .saveFig, st => { st with files := save_fig st.files p }
  | .closeFig, st => { st with openFigs := st.openFigs - 1 }

/-- Run a list of steps under Python exception semantics: a raising call
aborts immediately and the remaining statements — including a trailing
`plt.close` — never execute.  `raises` says which calls raise. -/
def run_steps (p : String) (raises : PlotStep → Bool) :
    List PlotStep → PlotState → Except PlotState PlotState
  | [], st => .ok st
  | step :: rest, st =>
      if raises step then .error st
      else run_steps p raises rest (run_step p step st)

/-- The statement order of the body of `plot_and_save_graph`: figure
creation, rendering, `savefig`, then `close` — with no try/finally
protecting the close. -/
def plot_body : List PlotStep := [.createFigure, .render, .saveFig, .closeFig]

/-- Effect view of `plot_and_save_graph(data, pid, output_dir, ...)`: runs
the body steps on the plot state, writing `plot_path output_dir pid`. -/
def plot_and_save_graph (st : PlotState) (pid output_dir : String)
    (raises : PlotStep → Bool) : Except PlotState PlotState :=
  run_steps (plot_path output_dir pid) raises plot_body st

/-- Claim C6: for every participant id and output directory, a (normally
completing) run of the plotter writes exactly the one deterministic path
`output_dir/participant_-pid-.png`: the files afterwards are the previous
files plus at most that path, the figure count is restored, and running the
plotter twice leaves the same files as running it once — the second run
overwrites instead of duplicating. -/
theorem plotter_writes_single_file (st : PlotState) (pid output_dir : String) :
    plot_and_save_graph st pid output_dir (fun _ => false)
      = .ok ⟨st.openFigs, save_fig st.files (plot_path output_dir pid)⟩
    ∧ (∀ q, q ∈ save_fig st.files (plot_path output_dir pid) ↔
        q ∈ st.files ∨ q = plot_path output_dir pid)
    ∧ save_fig (save_fig st.files (plot_path output_dir pid)) (plot_path output_dir pid)
      = save_fig st.files (plot_path output_dir pid) := by
  refine ⟨?_, ?_, ?_⟩
  · simp [plot_and_save_graph, run_steps, plot_body, run_step]
  · intro q
    unfold save_fig
    by_cases hmem : plot_path output_dir pid ∈ st.files
    · simp only [if_pos hmem]
      constructor
      · exact fun h => Or.inl h
      · rintro (h | rfl)
        · exact h
        · exact hmem
    · simp [if_neg hmem, List.mem_append]
  · unfold save_fig
    by_cases hmem : plot_path output_dir pid ∈ st.files
    · simp [if_pos hmem]
    · simp [if_neg hmem]

/-- Counterexample to Claim C8 as stated: when the `savefig` call raises
mid-render, `plot_and_save_graph` propagates the exception with the figure
it created still open (one live figure, none released) — there is no
try/finally around the body, so the trailing `plt.close(fig)` is skipped. -/
theorem plotter_leaks_figure_on_raise :
    plot_and_save_graph ⟨0, []⟩ "p1" "out"
      (fun step => match step with
        | PlotStep.saveFig => true
        | _ => false)
      = .error ⟨1, []⟩ := rfl

/-- Claim C8 (amended): the figure resource is released on the normal exit
path — when no call raises, the open-figure count returns to its initial
value — but on an exceptional exit after figure creation (a raising render
or save call) the call aborts with the figure still open: the close step is
only reached on normal completion. -/
theorem plotter_releases_figure_only_on_normal_exit (st : PlotState)
    (pid output_dir : String) (raises : PlotStep → Bool)
    (hcreate : raises PlotStep.createFigure = false) :
    (raises PlotStep.render = false → raises PlotStep.saveFig = false →
      raises PlotStep.closeFig = false →
      ∃ st', plot_and_save_graph st pid output_dir raises = .ok st'
        ∧ st'.openFigs = st.openFigs)
    ∧ (raises PlotStep.render = true →
      ∃ st', plot_and_save_graph st pid output_dir raises = .error st'
        ∧ st'.openFigs = st.openFigs + 1)
    ∧ (raises PlotStep.render = false → raises PlotStep.saveFig = true →
      ∃ st', plot_and_save_graph st pid output_dir raises = .error st'
        ∧ st'.openFigs = st.openFigs + 1) := by
  refine ⟨?_, ?_, ?_⟩
  · intro h1 h2 h3
    refine ⟨⟨st.openFigs, save_fig st.files (plot_path output_dir pid)⟩, ?_, rfl⟩
    simp [plot_and_save_graph, run_steps, plot_body, run_step, hcreate, h1, h2, h3]
  · intro h1
    refine ⟨⟨st.openFigs + 1, st.files⟩, ?_, rfl⟩
    simp [plot_and_save_graph, run_steps, plot_body, run_step, hcreate, h1]
  · intro h1 h2
    refine ⟨⟨st.openFigs + 1, st.files⟩, ?_, rfl⟩
    simp [plot_and_save_graph, run_steps, plot_body, run_step, hcreate, h1, h2]

/-- Witness for `plotter_releases_figure_only_on_normal_exit` with no call
raising. -/
theorem plotter_releases_figure_only_on_normal_exit_witness :
    (fun _ : PlotStep => false) PlotStep.createFigure = false ∧
    ∃ st', plot_and_save_graph ⟨0, []⟩ "p1" "out" (fun _ => false) = .ok st'
      ∧ st'.openFigs = 0 :=
  ⟨rfl, (plotter_releases_figure_only_on_normal_exit ⟨0, []⟩ "p1" "out"
    (fun _ => false) rfl).1 rfl rfl rfl⟩

end CGM

namespace CGM

/-- `indices = [0, 100, 200, 300, 400, 500, 600, 700, 784]`. -/
def indices : List ℕ := [0, 100, 200, 300, 400, 500, 600, 700, 784]

/-- `batch_files = [f"cleaned_data/batch_-start-_-end-.csv" for the eight
consecutive index pairs]`. -/
def batch_files : List String :=
  (List.range (indices.length - 1)).map (fun i =>
    "cleaned_data/batch_" ++ toString (indices.getD i 0) ++ "_"
      ++ toString (indices.getD (i + 1) 0) ++ ".csv")

/-- `df['participant_id'].unique()`: the distinct ids in first-seen order. -/
def unique_ids : List String → List String
  | [] => []
  | x :: rest => x :: unique_ids (rest.filter (fun y => decide (y ≠ x)))
termination_by l => l.length
decreasing_by
  simp only [List.length_cons]
  exact Nat.lt_succ_of_le (List.length_filter_le _ _)

/-- The batch driver loop: for each of the eight batch file names, if the
file exists under the root it is loaded and one plot is produced per
distinct participant id in it (range calculation then plotting); files that
do not exist are skipped silently.  `disk` maps a path to the
`participant_id` column of the CSV stored there, or `none` when no such
file exists; the result lists the participant ids plotted, in order — each
becomes exactly one written file `plot_path (path_join root "healthy_plots")
pid`. -/
def process_batches (root : String) (disk : String → Option (List String)) :
    List String :=
  batch_files.foldr
    (fun b acc =>
      match disk (path_join root b) with
      | none => acc
      | some col => unique_ids col ++ acc)
    []

/-- `unique` keeps exactly the ids present in the column. -/
theorem mem_unique_ids (pid : String) : ∀ l : List String,
    pid ∈ unique_ids l ↔ pid ∈ l := by
  intro l
  induction l using unique_ids.induct with
  | case1 => simp [unique_ids]
  | case2 x rest ih =>
    rw [unique_ids]
    by_cases hx : pid = x
    · simp [hx]
    · simp only [List.mem_cons, ih, List.mem_filter, decide_eq_true_eq]
      constructor
      · rintro (h | ⟨h, _⟩)
        · exact Or.inl h
        · exact Or.inr h
      · rintro (h | h)
        · exact Or.inl h
        · exact Or.inr ⟨h, hx⟩

/-- Membership in the driver output, over an arbitrary batch list. -/
theorem mem_process_batches_aux (pid root : String)
    (disk : String → Option (List String)) : ∀ bs : List String,
    (pid ∈ bs.foldr
      (fun b acc =>
        match disk (path_join root b) with
        | none => acc
        | some col => unique_ids col ++ acc)
      [])
    ↔ ∃ b ∈ bs, ∃ col, disk (path_join root b) = some col ∧ pid ∈ col := by
  intro bs
  induction bs with
  | nil => simp
  | cons b rest ih =>
    cases hd : disk (path_join root b) with
    | none =>
      simp only [List.foldr_cons, hd, ih, List.mem_cons]
      constructor
      · rintro ⟨b', hb', hcol⟩
        exact ⟨b', Or.inr hb', hcol⟩
      · rintro ⟨b', hb' | hb', col, hcol, hmem⟩
        · rw [hb'] at hcol
          rw [hd] at hcol
          exact absurd hcol (by simp)
        · exact ⟨b', hb', col, hcol, hmem⟩
    | some col =>
      simp only [List.foldr_cons, hd, List.mem_append, ih, mem_unique_ids, List.mem_cons]
      constructor
      · rintro (h | ⟨b', hb', hcol⟩)
        · exact ⟨b, Or.inl rfl, col, hd, h⟩
        · exact ⟨b', Or.inr hb', hcol⟩
      · rintro ⟨b', hb' | hb', col', hcol, hmem⟩
        · rw [hb'] at hcol
          rw [hd] at hcol
          obtain rfl : col = col' := by
            injection hcol
          exact Or.inl hmem
        · exact Or.inr ⟨b', hb', col', hcol, hmem⟩

/-- Claim C7: the batch driver silently skips every batch file missing from
disk and still completes: a participant is plotted exactly when some
existing batch file contains it, and a run against a root with no batch
files at all produces no plots and terminates normally. -/
theorem driver_skips_missing_batches (root : String)
    (disk : String → Option (List String)) :
    (∀ pid, pid ∈ process_batches root disk ↔
      ∃ b ∈ batch_files, ∃ col, disk (path_join root b) = some col ∧ pid ∈ col)
    ∧ process_batches root (fun _ => none) = [] := by
  constructor
  · intro pid
    exact mem_process_batches_aux pid root disk batch_files
  · rfl

end CGM

namespace CGM

/-- A data frame, as the plotter sees it: named columns of numeric cells
(timestamps modelled as seconds). -/
abbrev Frame : Type := List (String × List ℚ)

/-- `frame[c]`: the column named `c`. -/
def getCol (f : Frame) (c : String) : List ℚ :=
  match f.find? (fun e => decide (e.1 = c)) with
  | some e => e.2
  | none => []

/-- `frame[c] = v`: replace the column named `c`, or append it if absent. -/
def setCol (f : Frame) (c : String) (v : List ℚ) : Frame :=
  if f.any (fun e => decide (e.1 = c)) then
    f.map (fun e => if e.1 = c then (c, v) else e)
  else f ++ [(c, v)]

/-- `series.min()` over an already-materialised column (default 0 unused on
the non-empty columns the plotter sees). -/
def listMin (l : List ℚ) : ℚ := (l.min?).getD 0

/-- The column-mutating prefix of `plot_and_save_graph` under Python
reference semantics.  The heap holds one cell per live frame; `a` is the
address of the caller's participant series.  `data = data.copy()` allocates
a fresh cell and rebinds the local name `data` to it; the subsequent
in-place column assignments (`data['timestamp'] = pd.to_datetime(...)`,
`data['time_in_hours'] = ...`, `data['time_in_days'] = ...`,
`data.loc[:, 'day'] = ...`) mutate only that fresh cell.  `parse` abstracts
`pd.to_datetime`; elapsed hours divide by 3600, days by 24, and the
calendar-day bucket is the timestamp's day number.  Returns the new heap
and the address the local name `data` points to. -/
def plot_transform (heap : List Frame) (a : ℕ) (parse : ℚ → ℚ) :
    List Frame × ℕ :=
  let b := heap.length
  let h1 := heap ++ [heap.getD a []]
  let ts := (getCol (h1.getD b []) "timestamp").map parse
  let h2 := h1.set b (setCol (h1.getD b []) "timestamp" ts)
  let hrs := ts.map (fun t => (t - listMin ts) / 3600)
  let h3 := h2.set b (setCol (h2.getD b []) "time_in_hours" hrs)
  let days := hrs.map (fun t => t / 24)
  let h4 := h3.set b (setCol (h3.getD b []) "time_in_days" days)
  let day := ts.map (fun t => ((⌊t / 86400⌋ : ℤ) : ℚ))
  let h5 := h4.set b (setCol (h4.getD b []) "day" day)
  (h5, b)

/-- Writing a heap cell other than `j` leaves cell `j` unchanged. -/
theorem frame_getD_set_ne (l : List Frame) (i j : ℕ) (v : Frame)
    (hij : j ≠ i) : (l.set i v).getD j [] = l.getD j [] := by
  simp only [List.getD_eq_getElem?_getD]
  rw [List.getElem?_set_ne (Ne.symm hij)]

/-- Extending the heap leaves existing cells unchanged. -/
theorem frame_getD_append (l m : List Frame) (j : ℕ) (h : j < l.length) :
    (l ++ m).getD j [] = l.getD j [] := by
  simp only [List.getD_eq_getElem?_getD]
  rw [List.getElem?_append_left h]

/-- Claim C10: the plotter never mutates its input frame: the body operates
on a fresh copy (`data = data.copy()`), so after `plot_transform` the
caller's cell is identical to what it was before the call, and the local
name points to a different cell. -/
theorem plot_transform_preserves_caller_frame (heap : List Frame) (a : ℕ)
    (parse : ℚ → ℚ) (ha : a < heap.length) :
    (plot_transform heap a parse).1.getD a [] = heap.getD a []
    ∧ (plot_transform heap a parse).2 ≠ a := by
  have hne : a ≠ heap.length := Nat.ne_of_lt ha
  have hne1 : a ≠ (heap ++ [heap.getD a []]).length := by
    simp only [List.length_append, List.length_cons, List.length_nil]
    omega
  constructor
  · simp only [plot_transform]
    rw [frame_getD_set_ne _ _ _ _ hne, frame_getD_set_ne _ _ _ _ hne,
      frame_getD_set_ne _ _ _ _ hne, frame_getD_set_ne _ _ _ _ hne,
      frame_getD_append _ _ _ ha]
  · simp only [plot_transform]
    exact Ne.symm hne

/-- Witness for `plot_transform_preserves_caller_frame` on a one-frame
heap. -/
theorem plot_transform_preserves_caller_frame_witness :
    0 < ([[("timestamp", [(0 : ℚ)])]] : List Frame).length ∧
    (plot_transform [[("timestamp", [(0 : ℚ)])]] 0 (fun t => t)).1.getD 0 []
      = ([[("timestamp", [(0 : ℚ)])]] : List Frame).getD 0 [] ∧
    (plot_transform [[("timestamp", [(0 : ℚ)])]] 0 (fun t => t)).2 ≠ 0 :=
  ⟨Nat.zero_lt_one,
    (plot_transform_preserves_caller_frame [[("timestamp", [(0 : ℚ)])]] 0
      (fun t => t) Nat.zero_lt_one).1,
    (plot_transform_preserves_caller_frame [[("timestamp", [(0 : ℚ)])]] 0
      (fun t => t) Nat.zero_lt_one).2⟩

end CGM
